import Mathlib

/-!
# Verification of the `find_a_job` classification & reconciliation engine

Shallow embedding of the engine described in `spec.md` and implemented in
`src/bot.rs` and `src/job.rs`:

* timestamps are modelled as `Int` (seconds, second resolution, matching
  `chrono::DateTime<Utc>` differences observed through `Duration::num_days`);
* `HashMap<String, Job>` is modelled as the function map `String → Option Job`
  (all reconciliation steps are per-key independent, so iteration order of the
  Rust hash map is irrelevant);
* Rust enums become Lean inductives, `Option` stays `Option`, strings stay
  `String` (Rust `&String` ordering is byte-lexicographic on UTF-8, which
  coincides with Lean's codepoint-lexicographic `String` order).
-/

namespace FindAJob

/-- `chrono::Duration::num_days`: whole days in a duration of `d` seconds,
rounded toward zero (Rust integer division semantics). -/
def num_days (d : Int) : Int := d.tdiv 86400

/-- The `as i32` cast in `fn sorted` (`bot.rs`): wrap to the signed 32-bit range. -/
def wrap32 (n : Int) : Int := (n + 2 ^ 31) % 2 ^ 32 - 2 ^ 31

/-- `JobLevel` from `job.rs`. -/
inductive JobLevel
  | Intern | Entry | Mid | Senior | Lead
  deriving DecidableEq, Repr

/-- `JobSpecialty` from `job.rs`. -/
inductive JobSpecialty
  | Gameplay | Graphics | Engine | Physics | Animation | Ai
  | Audio | Ui | Network | Automation | Web
  deriving DecidableEq, Repr

/-- `JobDiscipline` from `job.rs`. -/
inductive JobDiscipline
  | Programmer | Designer | Artist | Writer | Composer | Tester | Manager | Other
  deriving DecidableEq, Repr

/-- The `Job` struct. Fields are those used by `bot.rs`/`job.rs`:
the lifecycle fields `first_seen` and `missing_since` are the ones
read and written by `Bot::update_job_source`, `Bot::list_jobs` and `fn sorted`
in `bot.rs` (the spec's `firstSeen`/`missingSince`). -/
structure Job where
  first_seen : Int
  missing_since : Option Int
  source : String
  company : String
  url : String
  title : String
  level : JobLevel
  specialty : Option JobSpecialty
  discipline : JobDiscipline
  is_general_application : Bool
  deriving DecidableEq, Repr

/-- `Job::score` from `job.rs`, the fixed preference table. -/
def Job.score (j : Job) : Int :=
  let s0 : Int := 0
  let s1 : Int := if j.is_general_application then s0 - 10 else s0
  let s2 : Int := s1 +
    match j.level with
    | .Intern => -1000
    | .Entry => 10
    | .Mid => 0
    | .Senior => -500
    | .Lead => -1000
  let s3 : Int := s2 +
    match j.discipline with
    | .Programmer => 100
    | .Designer => -105
    | .Artist => -105
    | .Writer => -110
    | .Composer => -110
    | .Tester => -125
    | .Manager => -150
    | .Other => -110
  let s4 : Int := s3 +
    match j.specialty with
    | some .Gameplay => 100
    | some .Graphics => 1
    | some .Engine => 1
    | some .Physics => -5
    | some .Animation => -100
    | some .Ai => -100
    | some .Audio => -110
    | some .Ui => -120
    | some .Network => -150
    | some .Automation => -150
    | some .Web => -150
    | none => 0
  10 * s4

/-- The in-memory job store `HashMap<String, Job>`, as a function map. -/
abbrev Store := String → Option Job

/-- First loop of `Bot::update_job_source`: set `missing_since` for jobs of the
scraped source that are absent from the incoming batch and not yet missing. -/
def markMissing (prev : Store) (srcName : String) (incoming : Store) (now : Int) :
    Store := fun id =>
  match prev id with
  | some old =>
      if old.source = srcName ∧ incoming id = none ∧ old.missing_since = none then
        some { old with missing_since := some now }
      else
        some old
  | none => none

/-- Second loop of `Bot::update_job_source`: for incoming jobs whose id is
already known, carry over the stored `first_seen`. -/
def carryFirstSeen (jobs : Store) (incoming : Store) : Store := fun id =>
  match incoming id with
  | some new =>
      match jobs id with
      | some old => some { new with first_seen := old.first_seen }
      | none => some new
  | none => none

/-- `self.jobs.extend(jobs)`: entries of `add` supersede entries of `base`. -/
def extendStore (base : Store) (add : Store) : Store := fun id =>
  match add id with
  | some j => some j
  | none => base id

/-- The `retain` predicate of `Bot::update_job_source`: keep a job unless it
belongs to the scraped source and has been missing for at least 3 days. -/
def keepJob (srcName : String) (now : Int) (job : Job) : Bool :=
  decide (job.source ≠ srcName) ||
    decide ((job.missing_since.map fun t => num_days (now - t)).getD 0 < 3)

/-- `Bot::update_job_source` (`bot.rs`), with the scrape result `incoming`
passed in: one reconciliation pass for the source named `srcName` at time
`now`, producing the next store. -/
def update_job_source (prev : Store) (srcName : String) (incoming : Store)
    (now : Int) : Store :=
  let s1 := markMissing prev srcName incoming now
  let s2 := extendStore s1 (carryFirstSeen s1 incoming)
  fun id =>
    match s2 id with
    | some job => if keepJob srcName now job then some job else none
    | none => none

/-- `Bot::load_jobs` (`bot.rs`). The `r!` macro of `tiny_bail` logs the error
and returns early from the function on `Err`, so a failed read or a failed
parse leaves `self.jobs` unchanged and the program keeps running. `readResult`
models `std::fs::read_to_string(JOBS_FILE_PATH)` and `parse` models
`ron::from_str`. -/
def load_jobs (jobs0 : Store) (readResult : Option String)
    (parse : String → Option Store) : Store :=
  match readResult with
  | none => jobs0
  | some s =>
      match parse s with
      | none => jobs0
      | some jobs => jobs

/-!
## Normalizer (`fn normalized` in `job.rs`)

Rust: `s.to_lowercase().replace(|c| !c.is_alphanumeric(), " ")
.split_whitespace().collect::<Vec<_>>().join(" ")`.

Strings are modelled at the `List Char` level (the classifier and normalizer
are character-wise); `to_lowercase`/`is_alphanumeric` are modelled by Lean's
`Char.toLower`/`Char.isAlphanum` (ASCII mappings; Unicode-only mappings of the
Rust originals are out of scope of the embedding).
-/

/-- `.replace(|c: char| !c.is_alphanumeric(), " ")`, character-wise. -/
def replaceChar (c : Char) : Char := if c.isAlphanum then c else ' '

/-- Split on single spaces, keeping empty segments (helper for `wordsOf`). -/
def splitSp : List Char → List (List Char)
  | [] => [[]]
  | c :: cs =>
      if c = ' ' then [] :: splitSp cs
      else
        match splitSp cs with
        | [] => [[c]]
        | w :: ws => (c :: w) :: ws

/-- `split_whitespace()`: the non-empty space-separated segments. (After the
`replace` step the only whitespace character left is `' '`.) -/
def wordsOf (l : List Char) : List (List Char) :=
  (splitSp l).filter fun w => !w.isEmpty

/-- `.join(" ")`. -/
def joinWords : List (List Char) → List Char
  | [] => []
  | [w] => w
  | w :: ws => w ++ ' ' :: joinWords ws

/-- `fn normalized` from `job.rs`, on character lists. -/
def normalized (l : List Char) : List Char :=
  joinWords (wordsOf ((l.map Char.toLower).map replaceChar))

/-- `fn normalized` as a `String → String` function. -/
def normalizedStr (s : String) : String := ⟨normalized s.data⟩

/-- `.replace(|c: char| !c.is_alphanumeric(), " ")` character-wise, with
`char::is_alphanumeric` (whose Unicode tables live in the Rust standard
library, outside this repository) abstracted as a parameter. -/
def replaceCharWith (isAlnum : Char → Bool) (c : Char) : Char :=
  if isAlnum c then c else ' '

/-- `fn normalized` from `job.rs` with the Rust standard library's Unicode
primitives abstracted as parameters: `lower` models the string-level
`str::to_lowercase` (context-sensitive and one-to-many in general — e.g.
final sigma, 'İ' → "i̇" — so it is kept at the whole-string level and
not assumed character-wise) and `isAlnum` models `char::is_alphanumeric`.
The pipeline structure is the source's: lowercase the whole string, replace
every non-alphanumeric character by a space, split on whitespace, join with
single spaces. (After the replace step every whitespace character has been
replaced by `' '` — no Unicode whitespace character is alphanumeric — so
`split_whitespace` is the split on spaces performed by `wordsOf`.) -/
def normalizedWith (lower : List Char → List Char) (isAlnum : Char → Bool)
    (l : List Char) : List Char :=
  joinWords (wordsOf ((lower l).map (replaceCharWith isAlnum)))

/-- `normalizedWith` as a `String → String` function. -/
def normalizedWithStr (lower : List Char → List Char) (isAlnum : Char → Bool)
    (s : String) : String :=
  ⟨normalizedWith lower isAlnum s.data⟩

/-!
## Discipline classifier (`fn parse_discipline` in `job.rs`)

Each rule is a regex `\b(alt1|...|altn)\b` matched against the normalized
title. On a normalized title (lower-case alphanumeric words separated by
single spaces) such a regex matches exactly when one of the alternatives,
read as a sequence of words, occurs as a contiguous run of words. Bounded
constructs (`engineer(ing)?`, `resources?`, ...) are expanded into their
finitely many alternatives.
-/

/-- Does the word sequence `pat` occur at the start of `ws`? -/
def startsWithRun : List (List Char) → List (List Char) → Bool
  | [], _ => true
  | _ :: _, [] => false
  | p :: ps, w :: ws => p == w && startsWithRun ps ws

/-- Does the word sequence `pat` occur as a contiguous run inside `ws`? -/
def hasRun (pat : List (List Char)) : List (List Char) → Bool
  | [] => pat.isEmpty
  | w :: ws => startsWithRun pat (w :: ws) || hasRun pat ws

/-- `\bphrase\b` matching for a list of alternatives against a normalized
title: some alternative's word sequence is a contiguous run of the title's
words. -/
def wbMatch (norm : List Char) (pats : List String) : Bool :=
  pats.any fun p => hasRun (wordsOf p.data) (wordsOf norm)

/-- `MANAGER_RE`: `\b(manager|director|president|coordinator|producer)\b`. -/
def MANAGER_RE : List String :=
  ["manager", "director", "president", "coordinator", "producer"]

/-- `TESTER_RE`: `\b(tester|qa|quality engineer(ing)?)\b`. -/
def TESTER_RE : List String :=
  ["tester", "qa", "quality engineer", "quality engineering"]

/-- `KNOWN_OTHER_RE`: `\b((bi|support|privacy|facility|mechatronics|enterprise
solution) engineer(ing)?|it|information technology|hr|human resources?|
representative)\b`. -/
def KNOWN_OTHER_RE : List String :=
  ["bi engineer", "bi engineering", "support engineer", "support engineering",
   "privacy engineer", "privacy engineering", "facility engineer",
   "facility engineering", "mechatronics engineer", "mechatronics engineering",
   "enterprise solution engineer", "enterprise solution engineering",
   "it", "information technology", "hr", "human resource", "human resources",
   "representative"]

/-- `PROGRAMMER_RE`: `\b(programmer|coder|developer|engineer(ing)?|technical
artist|swe|sre)\b`. -/
def PROGRAMMER_RE : List String :=
  ["programmer", "coder", "developer", "engineer", "engineering",
   "technical artist", "swe", "sre"]

/-- `OTHER_RE`: `\b(specialist|researcher|scientist|analyst|assistant|responder
|publishing|marketing|support)\b`. -/
def OTHER_RE : List String :=
  ["specialist", "researcher", "scientist", "analyst", "assistant",
   "responder", "publishing", "marketing", "support"]

/-- `ARTIST_RE`: `\b(artist|animator|modeler|3d generalist)\b`. -/
def ARTIST_RE : List String :=
  ["artist", "animator", "modeler", "3d generalist"]

/-- `WRITER_RE`: `\b(writer)\b`. -/
def WRITER_RE : List String := ["writer"]

/-- `COMPOSER_RE`: `\b(composer)\b`. -/
def COMPOSER_RE : List String := ["composer"]

/-- `DESIGNER_RE`: `\b(designer|architect)\b`. -/
def DESIGNER_RE : List String := ["designer", "architect"]

/-- `HEAD_RE`: `\b(lead|head)\b`. -/
def HEAD_RE : List String := ["lead", "head"]

/-- `GENERALIST_RE`: `\b(generalist)\b`. -/
def GENERALIST_RE : List String := ["generalist"]

/-- `fn parse_discipline` from `job.rs`: the ordered first-match-wins chain. -/
def parse_discipline (norm : List Char) : JobDiscipline :=
  if wbMatch norm MANAGER_RE then .Manager
  else if wbMatch norm TESTER_RE then .Tester
  else if wbMatch norm KNOWN_OTHER_RE then .Other
  else if wbMatch norm PROGRAMMER_RE then .Programmer
  else if wbMatch norm OTHER_RE then .Other
  else if wbMatch norm ARTIST_RE then .Artist
  else if wbMatch norm WRITER_RE then .Writer
  else if wbMatch norm COMPOSER_RE then .Composer
  else if wbMatch norm DESIGNER_RE then .Designer
  else if wbMatch norm HEAD_RE then .Manager
  else if wbMatch norm GENERALIST_RE then .Programmer
  else .Other

/-!
## Ranker (`fn sorted` and `Bot::list_jobs` in `bot.rs`)

Rust sorts the id list with the stable `sort_by_key` on the tuple
`(score > 0, age == 0, age < 7, score - age, company, title)`, compared
ascending and lexicographically (tuple `Ord`); `age` is
`(now - first_seen).num_days() as i32`.
-/

/-- `let age = (now - job.first_seen).num_days() as i32`. -/
def ageDays (now : Int) (j : Job) : Int := wrap32 (num_days (now - j.first_seen))

/-- The sort key tuple of `fn sorted`. -/
abbrev RankKey := Bool × Bool × Bool × Int × String × String

/-- The sort key of `fn sorted` for one job. -/
def rankKey (now : Int) (j : Job) : RankKey :=
  (decide (j.score > 0), decide (ageDays now j = 0), decide (ageDays now j < 7),
   j.score - ageDays now j, j.company, j.title)

/-- Lexicographic `≤` on a pair, given `≤` on the second component (Rust's
derived tuple `Ord`, one component at a time). -/
def lexLE (α β : Type) [LT α] (le : β → β → Prop) (a b : α × β) : Prop :=
  a.1 < b.1 ∨ a.1 = b.1 ∧ le a.2 b.2

instance {α β : Type} [LT α] [DecidableEq α]
    [DecidableRel fun (x y : α) => x < y]
    (le : β → β → Prop) [DecidableRel le] : DecidableRel (lexLE α β le) :=
  fun a b => inferInstanceAs (Decidable (a.1 < b.1 ∨ a.1 = b.1 ∧ le a.2 b.2))

/-- `≤` on the last two key components `(company, title)`. -/
def keyLE5 : String × String → String × String → Prop :=
  lexLE String String fun s t : String => s ≤ t

/-- `≤` on the last three key components `(score - age, company, title)`. -/
def keyLE4 : Int × String × String → Int × String × String → Prop :=
  lexLE Int (String × String) keyLE5

/-- `≤` on the last four key components. -/
def keyLE3 : Bool × Int × String × String → Bool × Int × String × String → Prop :=
  lexLE Bool (Int × String × String) keyLE4

/-- `≤` on the last five key components. -/
def keyLE2 : Bool × Bool × Int × String × String →
    Bool × Bool × Int × String × String → Prop :=
  lexLE Bool (Bool × Int × String × String) keyLE3

/-- Rust's derived `Ord` on the sort key tuple, as `≤`. -/
def keyLE : RankKey → RankKey → Prop :=
  lexLE Bool (Bool × Bool × Int × String × String) keyLE2

instance : DecidableRel keyLE5 := fun a b =>
  inferInstanceAs (Decidable (lexLE String String (fun s t : String => s ≤ t) a b))

instance : DecidableRel keyLE4 := fun a b =>
  inferInstanceAs (Decidable (lexLE Int (String × String) keyLE5 a b))

instance : DecidableRel keyLE3 := fun a b =>
  inferInstanceAs (Decidable (lexLE Bool (Int × String × String) keyLE4 a b))

instance : DecidableRel keyLE2 := fun a b =>
  inferInstanceAs (Decidable (lexLE Bool (Bool × Int × String × String) keyLE3 a b))

instance : DecidableRel keyLE := fun a b =>
  inferInstanceAs
    (Decidable (lexLE Bool (Bool × Bool × Int × String × String) keyLE2 a b))

/-- `fn sorted` from `bot.rs`: sort the store's entries by `rankKey`,
ascending. The input list is the hash map's (arbitrary) iteration order. -/
def sorted (now : Int) (jobs : List (String × Job)) : List (String × Job) :=
  List.insertionSort (fun a b => keyLE (rankKey now a.2) (rankKey now b.2)) jobs

/-- `Bot::list_jobs`: iterate `sorted(&self.jobs)`, skipping (`cq!`) every
entry whose `missing_since` is set; the result is the sequence of listed
entries. -/
def list_jobs (now : Int) (jobs : List (String × Job)) : List (String × Job) :=
  (sorted now jobs).filter fun p => p.2.missing_since.isNone

/-!
## Reconciliation lemmas
-/

/-- The first loop of a reconciliation pass maps a stored entry to an entry
with the same `first_seen` and `source` (it only ever touches
`missing_since`). -/
theorem markMissing_spec (prev : Store) (S : String) (inc : Store) (now : Int)
    (id : String) (old : Job) (h : prev id = some old) :
    ∃ o1, markMissing prev S inc now id = some o1 ∧
      o1.first_seen = old.first_seen ∧ o1.source = old.source := by
  by_cases hc : old.source = S ∧ inc id = none ∧ old.missing_since = none
  · refine ⟨{ old with missing_since := some now }, ?_, rfl, rfl⟩
    simp only [markMissing, h]
    rw [if_pos hc]
  · refine ⟨old, ?_, rfl, rfl⟩
    simp only [markMissing, h]
    rw [if_neg hc]

/-- `first_seen` is never changed by a reconciliation pass: whatever a pass
stores under an id that was already present has the previous entry's
`first_seen`. -/
theorem update_preserves_first_seen (p : Store) (s : String) (i : Store)
    (n : Int) (k : String) (o o' : Job) (hp : p k = some o)
    (hu : update_job_source p s i n k = some o') :
    o'.first_seen = o.first_seen := by
  obtain ⟨o1, hm, hfs, _⟩ := markMissing_spec p s i n k o hp
  simp only [update_job_source, extendStore, carryFirstSeen] at hu
  cases hik : i k with
  | none =>
      rw [hik, hm] at hu
      simp only [] at hu
      split at hu
      · rw [Option.some.injEq] at hu
        rw [← hu]
        exact hfs
      · exact absurd hu (by simp)
  | some new =>
      rw [hik, hm] at hu
      simp only [] at hu
      split at hu
      · rw [Option.some.injEq] at hu
        rw [← hu]
        exact hfs
      · exact absurd hu (by simp)

/-!
## Claim C1: missing/recovery round trip
-/

/-- **C1**: a stored posting of source `S` absent from `S`'s incoming batch is
kept with `missing_since` set to the pass's time; a later pass in which the
same id reappears in `S`'s batch stores the incoming entry with
`missing_since` unset and `first_seen` equal to the original
first-observation time; and `first_seen`, once set, is never changed by any
reconciliation pass. -/
theorem C1_missing_recovery_roundtrip
    (prev : Store) (S : String) (inc2 inc3 : Store) (t2 t3 : Int)
    (id : String) (old j : Job)
    (h1 : prev id = some old) (h2 : old.source = S)
    (h3 : old.missing_since = none) (h4 : inc2 id = none)
    (h5 : inc3 id = some j) (h6 : j.missing_since = none) :
    update_job_source prev S inc2 t2 id =
      some { old with missing_since := some t2 } ∧
    update_job_source (update_job_source prev S inc2 t2) S inc3 t3 id =
      some { j with first_seen := old.first_seen } ∧
    ∀ (p : Store) (s : String) (i : Store) (n : Int) (k : String) (o o' : Job),
      p k = some o → update_job_source p s i n k = some o' →
      o'.first_seen = o.first_seen := by
  have e1 : markMissing prev S inc2 t2 id =
      some { old with missing_since := some t2 } := by
    simp only [markMissing, h1]
    rw [if_pos ⟨h2, h4, h3⟩]
  have hk1 : keepJob S t2 { old with missing_since := some t2 } = true := by
    simp [keepJob, num_days]
  have step1 : update_job_source prev S inc2 t2 id =
      some { old with missing_since := some t2 } := by
    simp only [update_job_source, extendStore, carryFirstSeen]
    rw [h4, e1]
    simp only []
    rw [hk1]
    simp
  refine ⟨step1, ?_, fun p s i n k o o' hp hu =>
    update_preserves_first_seen p s i n k o o' hp hu⟩
  obtain ⟨P2, hP2⟩ : ∃ P2, update_job_source prev S inc2 t2 = P2 := ⟨_, rfl⟩
  rw [hP2] at step1
  have e2 : markMissing P2 S inc3 t3 id =
      some { old with missing_since := some t2 } := by
    simp only [markMissing, step1]
    rw [if_neg]
    rintro ⟨_, hc, _⟩
    rw [h5] at hc
    cases hc
  have hk2 : keepJob S t3 { j with first_seen := old.first_seen } = true := by
    simp [keepJob, h6]
  rw [hP2]
  simp only [update_job_source, extendStore, carryFirstSeen]
  rw [h5, e2]
  simp only []
  rw [hk2]
  simp

/-- Concrete store entry for the C1 witness. -/
def c1Old : Job where
  first_seen := 100
  missing_since := none
  source := "A"
  company := "Acme"
  url := "u"
  title := "T"
  level := .Mid
  specialty := none
  discipline := .Programmer
  is_general_application := false

/-- Concrete reappearing posting for the C1 witness. -/
def c1New : Job := { c1Old with first_seen := 2000000 }

/-- Concrete previous store for the C1 witness. -/
def c1Prev : Store := fun id => if id = "j" then some c1Old else none

/-- Concrete (empty) generation-2 batch for the C1 witness. -/
def c1Inc2 : Store := fun _ => none

/-- Concrete generation-3 batch for the C1 witness. -/
def c1Inc3 : Store := fun id => if id = "j" then some c1New else none

/-- Witness for C1 at concrete inputs. -/
theorem C1_witness :
    (c1Prev "j" = some c1Old ∧ c1Old.source = "A" ∧
      c1Old.missing_since = none ∧ c1Inc2 "j" = none ∧
      c1Inc3 "j" = some c1New ∧ c1New.missing_since = none) ∧
    (update_job_source c1Prev "A" c1Inc2 1000000 "j" =
        some { c1Old with missing_since := some 1000000 } ∧
      update_job_source (update_job_source c1Prev "A" c1Inc2 1000000) "A"
          c1Inc3 2000000 "j" =
        some { c1New with first_seen := c1Old.first_seen } ∧
      ∀ (p : Store) (s : String) (i : Store) (n : Int) (k : String) (o o' : Job),
        p k = some o → update_job_source p s i n k = some o' →
        o'.first_seen = o.first_seen) :=
  ⟨⟨by decide, by decide, by decide, rfl, by decide, by decide⟩,
    C1_missing_recovery_roundtrip c1Prev "A" c1Inc2 c1Inc3 1000000 2000000 "j"
      c1Old c1New (by decide) (by decide) (by decide) rfl (by decide) (by decide)⟩

/-!
## Claim C2: eviction boundary
-/

/-- **C2**: after a reconciliation pass for source `S`, a store entry of
source `S` that is not re-observed is absent from the next store iff its
`missing_since` was set and is at least the grace period (3 whole days) old;
in particular an entry missing for the grace period minus one day remains and
an entry missing for the grace period or more is removed entirely. -/
theorem C2_eviction_boundary
    (prev : Store) (S : String) (inc : Store) (now : Int) (id : String)
    (old : Job) (h1 : prev id = some old) (h2 : old.source = S)
    (h3 : inc id = none) :
    update_job_source prev S inc now id = none ↔
      ∃ t, old.missing_since = some t ∧ 3 ≤ num_days (now - t) := by
  cases hms : old.missing_since with
  | none =>
      have e1 : markMissing prev S inc now id =
          some { old with missing_since := some now } := by
        simp only [markMissing, h1]
        rw [if_pos ⟨h2, h3, hms⟩]
      have hk : keepJob S now { old with missing_since := some now } = true := by
        simp [keepJob, num_days]
      have hval : update_job_source prev S inc now id =
          some { old with missing_since := some now } := by
        simp only [update_job_source, extendStore, carryFirstSeen]
        rw [h3, e1]
        simp only []
        rw [hk]
        simp
      rw [hval]
      constructor
      · intro hcon
        exact Option.noConfusion hcon
      · rintro ⟨t, ht, _⟩
        exact Option.noConfusion ht
  | some t0 =>
      have e1 : markMissing prev S inc now id = some old := by
        simp only [markMissing, h1]
        rw [if_neg]
        rintro ⟨_, _, hc⟩
        rw [hms] at hc
        cases hc
      have hval : update_job_source prev S inc now id =
          if keepJob S now old = true then some old else none := by
        simp only [update_job_source, extendStore, carryFirstSeen]
        rw [h3, e1]
      rw [hval]
      by_cases hlt : num_days (now - t0) < 3
      · have hk : keepJob S now old = true := by
          simp [keepJob, hms, hlt]
        rw [if_pos hk]
        constructor
        · intro hcon
          exact Option.noConfusion hcon
        · rintro ⟨t, ht, hge⟩
          rw [Option.some.injEq] at ht
          subst ht
          omega
      · have hk : keepJob S now old = false := by
          simp [keepJob, hms, h2, hlt]
        rw [hk]
        simp only [Bool.false_eq_true, if_false, true_iff]
        exact ⟨t0, rfl, not_lt.mp hlt⟩

/-- Concrete entry missing since time 0 for the C2 witness. -/
def c2Old : Job := { c1Old with missing_since := some 0 }

/-- Concrete previous store for the C2 witness. -/
def c2Prev : Store := fun id => if id = "j" then some c2Old else none

/-- Concrete empty batch for the C2 witness. -/
def c2Inc : Store := fun _ => none

/-- Witness for C2 at concrete inputs, on both sides of the boundary:
missing for 2 days (grace minus one) the entry remains; missing for exactly
3 days it is evicted. -/
theorem C2_witness :
    (c2Prev "j" = some c2Old ∧ c2Old.source = "A" ∧ c2Inc "j" = none) ∧
    (update_job_source c2Prev "A" c2Inc (2 * 86400) "j" = none ↔
      ∃ t, c2Old.missing_since = some t ∧ 3 ≤ num_days (2 * 86400 - t)) ∧
    (update_job_source c2Prev "A" c2Inc (3 * 86400) "j" = none ↔
      ∃ t, c2Old.missing_since = some t ∧ 3 ≤ num_days (3 * 86400 - t)) :=
  ⟨⟨by decide, by decide, rfl⟩,
    C2_eviction_boundary c2Prev "A" c2Inc (2 * 86400) "j" c2Old (by decide)
      (by decide) rfl,
    C2_eviction_boundary c2Prev "A" c2Inc (3 * 86400) "j" c2Old (by decide)
      (by decide) rfl⟩

/-!
## Claim C3: cross-source isolation
-/

/-- **C3** (amended): reconciling source `S` never evicts or otherwise
mutates a store entry whose source differs from `S`, provided the entry's id
does not occur in the incoming batch (in particular, for an empty batch every
other-source entry is unchanged). Unrestricted batches can mutate
other-source entries through id collisions (see the counterexample and C10). -/
theorem C3_cross_source_isolation
    (prev : Store) (S : String) (inc : Store) (now : Int) (id : String)
    (job : Job) (h1 : prev id = some job) (h2 : job.source ≠ S)
    (h3 : inc id = none) :
    update_job_source prev S inc now id = some job := by
  have e1 : markMissing prev S inc now id = some job := by
    simp only [markMissing, h1]
    rw [if_neg]
    rintro ⟨hc, _, _⟩
    exact h2 hc
  have hk : keepJob S now job = true := by
    simp [keepJob, h2]
  simp only [update_job_source, extendStore, carryFirstSeen]
  rw [h3, e1]
  simp only []
  rw [hk]
  simp

/-- Concrete source-"B" entry for the C3 theorems. -/
def c3JobB : Job where
  first_seen := 100
  missing_since := none
  source := "B"
  company := "BetaCo"
  url := "u"
  title := "Old title"
  level := .Mid
  specialty := none
  discipline := .Programmer
  is_general_application := false

/-- Concrete source-"A" incoming posting that collides with the id of the
source-"B" entry. -/
def c3JobA : Job := { c3JobB with source := "A", title := "New title" }

/-- Concrete previous store for the C3 theorems. -/
def c3Prev : Store := fun id => if id = "x" then some c3JobB else none

/-- Concrete colliding incoming batch for the C3 counterexample. -/
def c3Inc : Store := fun id => if id = "x" then some c3JobA else none

/-- Counterexample to C3 as stated (quantified over every incoming batch):
a batch for source "A" whose posting reuses the id of a source-"B" entry
replaces that entry, so the source-"B" entry is mutated. -/
theorem C3_counterexample :
    c3Prev "x" = some c3JobB ∧ c3JobB.source ≠ "A" ∧
    update_job_source c3Prev "A" c3Inc 0 "x" ≠ some c3JobB := by
  decide

/-- Witness for the amended C3 at concrete inputs (empty batch). -/
theorem C3_witness :
    (c3Prev "x" = some c3JobB ∧ c3JobB.source ≠ "A" ∧
      (fun _ : String => (none : Option Job)) "x" = none) ∧
    update_job_source c3Prev "A" (fun _ => none) 5 "x" = some c3JobB :=
  ⟨⟨by decide, by decide, rfl⟩,
    C3_cross_source_isolation c3Prev "A" (fun _ => none) 5 "x" c3JobB
      (by decide) (by decide) rfl⟩

/-!
## Claim C10: the reconciler matches by id alone
-/

/-- **C10**: the reconciler matches incoming postings to stored postings by
id alone — no source comparison: whenever an incoming posting's id equals a
stored entry's id (the stored entry may belong to any source), the stored
entry's `first_seen` is copied onto the incoming posting and that posting
replaces the entry in the next store. -/
theorem C10_match_by_id_alone
    (prev : Store) (S : String) (inc : Store) (now : Int) (id : String)
    (old new : Job) (h1 : prev id = some old) (h2 : inc id = some new)
    (h3 : new.missing_since = none) :
    update_job_source prev S inc now id =
      some { new with first_seen := old.first_seen } := by
  have e1 : markMissing prev S inc now id = some old := by
    simp only [markMissing, h1]
    rw [if_neg]
    rintro ⟨_, hc, _⟩
    rw [h2] at hc
    cases hc
  have hk : keepJob S now { new with first_seen := old.first_seen } = true := by
    simp [keepJob, h3]
  simp only [update_job_source, extendStore, carryFirstSeen]
  rw [h2, e1]
  simp only []
  rw [hk]
  simp

/-- Witness for C10 at concrete inputs: the stored entry belongs to source
"B" while source "A" is being reconciled, and is replaced anyway. -/
theorem C10_witness :
    (c3Prev "x" = some c3JobB ∧ c3Inc "x" = some c3JobA ∧
      c3JobA.missing_since = none) ∧
    update_job_source c3Prev "A" c3Inc 0 "x" =
      some { c3JobA with first_seen := c3JobB.first_seen } :=
  ⟨⟨by decide, by decide, by decide⟩,
    C10_match_by_id_alone c3Prev "A" c3Inc 0 "x" c3JobB c3JobA (by decide)
      (by decide) (by decide)⟩

/-!
## Claim C4: behaviour of a failed store load
-/

/-- The empty store (the `Bot::default()` value of `self.jobs` at process
start). -/
def emptyStore : Store := fun _ => none

/-- Incoming posting for the C4 counterexample: a posting that the lost
on-disk store already knew, rescraped at time 500. -/
def c4New : Job where
  first_seen := 500
  missing_since := none
  source := "A"
  company := "Acme"
  url := "u"
  title := "T"
  level := .Mid
  specialty := none
  discipline := .Programmer
  is_general_application := false

/-- Incoming batch for the C4 counterexample. -/
def c4Inc : Store := fun id => if id = "x" then some c4New else none

/-- Counterexample to C4 as stated: a failed read (`none`) makes `load_jobs`
return normally with the store unchanged — the empty default — instead of
aborting, and the following reconciliation pass then stores a previously
known posting as brand new (`first_seen` = the fresh scrape time 500, not its
original first-observation time). -/
theorem C4_counterexample :
    load_jobs emptyStore none (fun _ => none) = emptyStore ∧
    update_job_source (load_jobs emptyStore none (fun _ => none)) "A" c4Inc
      500 "x" = some c4New ∧
    c4New.first_seen = 500 := by
  refine ⟨rfl, ?_, rfl⟩
  decide

/-- **C4** (amended): if loading the persisted store fails — missing file
(read yields `none`) or malformed/undeserializable content (parse yields
`none`) — `load_jobs` logs and returns early, leaving the in-memory store
unchanged (the empty default at process start); the run continues rather
than aborting. -/
theorem C4_load_failure_not_fatal
    (jobs0 : Store) (parse : String → Option Store) (s : String) :
    load_jobs jobs0 none parse = jobs0 ∧
    (parse s = none → load_jobs jobs0 (some s) parse = jobs0) := by
  refine ⟨rfl, fun h => ?_⟩
  simp [load_jobs, h]

/-- Witness for the amended C4 at concrete inputs. -/
theorem C4_witness :
    ((fun _ : String => (none : Option Store)) "bad" = none) ∧
    (load_jobs emptyStore none (fun _ => none) = emptyStore ∧
      ((fun _ : String => (none : Option Store)) "bad" = none →
        load_jobs emptyStore (some "bad") (fun _ => none) = emptyStore)) :=
  ⟨rfl, C4_load_failure_not_fatal emptyStore (fun _ => none) "bad"⟩

/-!
## Claim C5: score sign
-/

/-- **C5**: a posting whose discipline is not `Programmer` and whose
specialty is absent never scores above 0 under the default weight table. -/
theorem C5_score_sign (j : Job) (h1 : j.discipline ≠ .Programmer)
    (h2 : j.specialty = none) : j.score ≤ 0 := by
  obtain ⟨fs, ms, src, co, u, ti, lv, sp, d, g⟩ := j
  simp only at h1 h2
  subst h2
  cases d
  case Programmer => exact absurd rfl h1
  all_goals cases lv <;> cases g <;> norm_num [Job.score]

/-- Concrete non-programmer posting for the C5 witness. -/
def c5Job : Job where
  first_seen := 0
  missing_since := none
  source := "A"
  company := "Acme"
  url := "u"
  title := "Environment Artist"
  level := .Entry
  specialty := none
  discipline := .Artist
  is_general_application := false

/-- Witness for C5 at a concrete posting. -/
theorem C5_witness :
    (c5Job.discipline ≠ .Programmer ∧ c5Job.specialty = none) ∧
    c5Job.score ≤ 0 :=
  ⟨⟨by decide, rfl⟩, C5_score_sign c5Job (by decide) rfl⟩

/-!
## Claim C6: ordering precedence in the discipline rules
-/

/-- **C6**: classifying "Director of Engineering" yields `Manager`, not
`Programmer`: both the manager rule ("director") and the programmer rule
("engineering") match the normalized title, and the manager rule is
evaluated first, so the management cue dominates. -/
theorem C6_manager_precedence :
    parse_discipline (normalized ("Director of Engineering").data) =
      JobDiscipline.Manager ∧
    wbMatch (normalized ("Director of Engineering").data) MANAGER_RE = true ∧
    wbMatch (normalized ("Director of Engineering").data) PROGRAMMER_RE =
      true := by
  decide

/-!
## Claim C9: the listing filters out missing entries
-/

/-- **C9**: the listing operation outputs exactly the store entries whose
`missing_since` is unset; in particular an entry still present in the store
but marked missing (within the grace period) is excluded from the listed
output. -/
theorem C9_listing_filters_missing (now : Int) (jobs : List (String × Job))
    (p : String × Job) :
    p ∈ list_jobs now jobs ↔ p ∈ jobs ∧ p.2.missing_since = none := by
  unfold list_jobs sorted
  rw [List.mem_filter]
  constructor
  · rintro ⟨hmem, hnone⟩
    refine ⟨(List.perm_insertionSort _ jobs).mem_iff.mp hmem, ?_⟩
    simpa [Option.isNone_iff_eq_none] using hnone
  · rintro ⟨hmem, hnone⟩
    refine ⟨(List.perm_insertionSort _ jobs).mem_iff.mpr hmem, ?_⟩
    simp [hnone]

/-!
## Claim C8: ranking ties
-/

theorem lexLE_total (α β : Type) [LinearOrder α] {le : β → β → Prop}
    (h : ∀ x y : β, le x y ∨ le y x) :
    ∀ a b : α × β, lexLE α β le a b ∨ lexLE α β le b a := by
  intro a b
  rcases lt_trichotomy a.1 b.1 with h1 | h1 | h1
  · exact Or.inl (Or.inl h1)
  · rcases h a.2 b.2 with h2 | h2
    · exact Or.inl (Or.inr ⟨h1, h2⟩)
    · exact Or.inr (Or.inr ⟨h1.symm, h2⟩)
  · exact Or.inr (Or.inl h1)

theorem lexLE_trans (α β : Type) [LinearOrder α] {le : β → β → Prop}
    (h : ∀ x y z : β, le x y → le y z → le x z) :
    ∀ a b c : α × β, lexLE α β le a b → lexLE α β le b c → lexLE α β le a c := by
  intro a b c hab hbc
  rcases hab with h1 | ⟨h1, h2⟩
  · rcases hbc with h3 | ⟨h3, _⟩
    · exact Or.inl (h1.trans h3)
    · exact Or.inl (h3 ▸ h1)
  · rcases hbc with h3 | ⟨h3, h4⟩
    · exact Or.inl (h1 ▸ h3)
    · exact Or.inr ⟨h1.trans h3, h _ _ _ h2 h4⟩

/-- If the first components are equal, a lexicographic `≤` gives `≤` on the
second components. -/
theorem lexLE_snd {α β : Type} [LinearOrder α] {le : β → β → Prop}
    {a b : α × β} (hab : lexLE α β le a b) (h : a.1 = b.1) : le a.2 b.2 := by
  rcases hab with h1 | ⟨_, h2⟩
  · rw [h] at h1
    exact absurd h1 (lt_irrefl _)
  · exact h2

theorem keyLE_total : ∀ a b : RankKey, keyLE a b ∨ keyLE b a := by
  unfold keyLE keyLE2 keyLE3 keyLE4 keyLE5
  exact lexLE_total _ _ (lexLE_total _ _ (lexLE_total _ _ (lexLE_total _ _
    (lexLE_total _ _ fun x y => le_total x y))))

theorem keyLE_trans :
    ∀ a b c : RankKey, keyLE a b → keyLE b c → keyLE a c := by
  unfold keyLE keyLE2 keyLE3 keyLE4 keyLE5
  exact lexLE_trans _ _ (lexLE_trans _ _ (lexLE_trans _ _ (lexLE_trans _ _
    (lexLE_trans _ _ fun x y z hxy hyz => hxy.trans hyz))))

/-- **C8** (amended): in the output of the ranker, any two entries with equal
score, equal age in whole days (hence in particular equal age bucket), and
equal company appear in ascending title order. This holds for every iteration
order of the store's hash map, so the relative order of two such entries with
distinct titles is the same on every run over the same store contents and
current time. (As stated over a whole age *bucket* the claim fails: inside a
bucket the key orders by `score - age` before title; see the
counterexample.) -/
theorem C8_rank_title_order (now : Int) (jobs : List (String × Job)) :
    List.Pairwise
      (fun a b : String × Job =>
        a.2.score = b.2.score → ageDays now a.2 = ageDays now b.2 →
        a.2.company = b.2.company → a.2.title ≤ b.2.title)
      (sorted now jobs) := by
  have hs : List.Pairwise (fun a b : String × Job =>
      keyLE (rankKey now a.2) (rankKey now b.2)) (sorted now jobs) := by
    unfold sorted
    haveI : IsTotal (String × Job)
        (fun a b => keyLE (rankKey now a.2) (rankKey now b.2)) :=
      ⟨fun a b => keyLE_total _ _⟩
    haveI : IsTrans (String × Job)
        (fun a b => keyLE (rankKey now a.2) (rankKey now b.2)) :=
      ⟨fun a b c => keyLE_trans _ _ _⟩
    exact List.sorted_insertionSort _ _
  refine hs.imp ?_
  intro a b hk hsc hage hco
  have e1 : keyLE2 (rankKey now a.2).2 (rankKey now b.2).2 :=
    lexLE_snd hk (by simp [rankKey, hsc])
  have e2 : keyLE3 (rankKey now a.2).2.2 (rankKey now b.2).2.2 :=
    lexLE_snd e1 (by simp [rankKey, hage])
  have e3 : keyLE4 (rankKey now a.2).2.2.2 (rankKey now b.2).2.2.2 :=
    lexLE_snd e2 (by simp [rankKey, hage])
  have e4 : keyLE5 (rankKey now a.2).2.2.2.2 (rankKey now b.2).2.2.2.2 :=
    lexLE_snd e3 (by simp [rankKey, hsc, hage])
  exact lexLE_snd e4 (by simp [rankKey, hco])

/-- First entry of the C8 counterexample: seen 3 days ago, title "b". -/
def c8JobX : Job where
  first_seen := 7 * 86400
  missing_since := none
  source := "A"
  company := "Acme"
  url := "u"
  title := "b"
  level := .Mid
  specialty := none
  discipline := .Programmer
  is_general_application := false

/-- Second entry of the C8 counterexample: seen 1 day ago, title "a". -/
def c8JobY : Job := { c8JobX with first_seen := 9 * 86400, title := "a" }

/-- Counterexample to C8 as stated: at `now` = day 10, the two entries have
equal score, lie in the same age bucket (neither seen today, both within a
week), and share a company, yet the ranker puts title "b" before title "a":
inside a bucket the key compares `score - age` before the title. -/
theorem C8_counterexample :
    c8JobX.score = c8JobY.score ∧
    (ageDays (10 * 86400) c8JobX = 0 ↔ ageDays (10 * 86400) c8JobY = 0) ∧
    (ageDays (10 * 86400) c8JobX < 7 ↔ ageDays (10 * 86400) c8JobY < 7) ∧
    c8JobX.company = c8JobY.company ∧
    ¬ c8JobX.title ≤ c8JobY.title ∧
    sorted (10 * 86400) [("x", c8JobX), ("y", c8JobY)] =
      [("x", c8JobX), ("y", c8JobY)] := by
  refine ⟨rfl, by decide, by decide, rfl, ?_, by decide⟩
  rw [String.le_iff_toList_le]
  decide

/-!
## Claim C7: idempotence of the normalizer
-/

theorem toLower_idem (c : Char) : c.toLower.toLower = c.toLower := by
  have key : ∀ m : Nat, 65 ≤ m → m ≤ 90 →
      Char.toLower (Char.ofNat (m + 32)) = Char.ofNat (m + 32) := by
    intro m hm1 hm2
    interval_cases m <;> decide
  by_cases h : c.toNat ≥ 65 ∧ c.toNat ≤ 90
  · have h1 : c.toLower = Char.ofNat (c.toNat + 32) := by
      simp only [Char.toLower]
      rw [if_pos h]
    rw [h1, key c.toNat h.1 h.2]
  · have h1 : c.toLower = c := by
      simp only [Char.toLower]
      rw [if_neg h]
    rw [h1, h1]

theorem replaceChar_idem (c : Char) :
    replaceChar (replaceChar c) = replaceChar c := by
  unfold replaceChar
  by_cases h : c.isAlphanum
  · rw [if_pos h, if_pos h]
  · rw [if_neg h]
    decide

theorem toLower_replace_lower (c : Char) :
    (replaceChar c.toLower).toLower = replaceChar c.toLower := by
  unfold replaceChar
  by_cases h : (c.toLower).isAlphanum
  · rw [if_pos h]
    exact toLower_idem c
  · rw [if_neg h]
    decide

theorem splitSp_ne_nil (l : List Char) : splitSp l ≠ [] := by
  induction l with
  | nil => simp [splitSp]
  | cons c cs ih =>
      simp only [splitSp]
      by_cases h : c = ' '
      · rw [if_pos h]
        simp
      · rw [if_neg h]
        cases hs : splitSp cs with
        | nil => simp
        | cons w ws => simp

theorem mem_splitSp (l : List Char) (w : List Char) (c : Char)
    (hw : w ∈ splitSp l) (hc : c ∈ w) : c ∈ l ∧ c ≠ ' ' := by
  induction l generalizing w with
  | nil =>
      simp only [splitSp, List.mem_singleton] at hw
      subst hw
      cases hc
  | cons d ds ih =>
      simp only [splitSp] at hw
      by_cases h : d = ' '
      · rw [if_pos h] at hw
        rcases List.mem_cons.mp hw with rfl | hw'
        · cases hc
        · obtain ⟨h1, h2⟩ := ih w hw' hc
          exact ⟨List.mem_cons_of_mem d h1, h2⟩
      · rw [if_neg h] at hw
        cases hs : splitSp ds with
        | nil => exact absurd hs (splitSp_ne_nil ds)
        | cons w0 ws0 =>
            rw [hs] at hw
            rcases List.mem_cons.mp hw with rfl | hw'
            · rcases List.mem_cons.mp hc with rfl | hc'
              · exact ⟨List.mem_cons_self _ _, h⟩
              · have h1 := ih w0 (by rw [hs]; exact List.mem_cons_self w0 ws0) hc'
                exact ⟨List.mem_cons_of_mem d h1.1, h1.2⟩
            · have h1 := ih w (by rw [hs]; exact List.mem_cons_of_mem _ hw') hc
              exact ⟨List.mem_cons_of_mem d h1.1, h1.2⟩

theorem splitSp_append (w : List Char) (hw : ∀ c ∈ w, c ≠ ' ')
    (rest r : List Char) (rs : List (List Char))
    (h : splitSp rest = r :: rs) : splitSp (w ++ rest) = (w ++ r) :: rs := by
  induction w with
  | nil => simpa using h
  | cons c cs ih =>
      have hc : c ≠ ' ' := hw c (List.mem_cons_self _ _)
      have ih' := ih fun x hx => hw x (List.mem_cons_of_mem _ hx)
      simp only [List.cons_append, splitSp]
      rw [if_neg hc]
      simp only [List.append_eq]
      rw [ih']

theorem mem_joinWords (ws : List (List Char)) (c : Char)
    (hc : c ∈ joinWords ws) : c = ' ' ∨ ∃ w ∈ ws, c ∈ w := by
  induction ws with
  | nil => cases hc
  | cons w ws ih =>
      cases ws with
      | nil =>
          exact Or.inr ⟨w, List.mem_cons_self _ _, by simpa [joinWords] using hc⟩
      | cons w2 ws2 =>
          rw [show joinWords (w :: w2 :: ws2) =
            w ++ ' ' :: joinWords (w2 :: ws2) from rfl] at hc
          rcases List.mem_append.mp hc with h1 | h2
          · exact Or.inr ⟨w, List.mem_cons_self _ _, h1⟩
          · rcases List.mem_cons.mp h2 with rfl | h3
            · exact Or.inl rfl
            · rcases ih h3 with h4 | ⟨w', hw', hc'⟩
              · exact Or.inl h4
              · exact Or.inr ⟨w', List.mem_cons_of_mem _ hw', hc'⟩

theorem wordsOf_spec (x : List Char) :
    ∀ w ∈ wordsOf x, w ≠ [] ∧ ∀ c ∈ w, c ≠ ' ' := by
  intro w hw
  refine ⟨?_, fun c hc => (mem_splitSp x w c (List.mem_of_mem_filter hw) hc).2⟩
  have h1 := List.of_mem_filter hw
  simpa using h1

theorem wordsOf_joinWords (ws : List (List Char))
    (h : ∀ w ∈ ws, w ≠ [] ∧ ∀ c ∈ w, c ≠ ' ') : wordsOf (joinWords ws) = ws := by
  induction ws with
  | nil => rfl
  | cons w ws ih =>
      obtain ⟨hne, hsp⟩ := h w (List.mem_cons_self _ _)
      cases ws with
      | nil =>
          have hsw : splitSp w = [w] := by
            have h1 := splitSp_append w hsp [] [] [] rfl
            simpa using h1
          unfold wordsOf
          rw [show joinWords [w] = w from rfl, hsw]
          simp [hne]
      | cons w2 ws2 =>
          have ih' := ih fun x hx => h x (List.mem_cons_of_mem _ hx)
          cases hs : splitSp (joinWords (w2 :: ws2)) with
          | nil => exact absurd hs (splitSp_ne_nil _)
          | cons r rs =>
              have hrest : splitSp (' ' :: joinWords (w2 :: ws2)) =
                  [] :: r :: rs := by
                simp [splitSp, hs]
              have happ := splitSp_append w hsp
                (' ' :: joinWords (w2 :: ws2)) [] (r :: rs) hrest
              unfold wordsOf
              rw [show joinWords (w :: w2 :: ws2) =
                w ++ ' ' :: joinWords (w2 :: ws2) from rfl, happ]
              unfold wordsOf at ih'
              rw [hs] at ih'
              have hwt : (!w.isEmpty) = true := by
                cases w with
                | nil => exact absurd rfl hne
                | cons a as => rfl
              rw [List.append_nil, List.filter_cons, hwt, if_pos rfl, ih']

theorem map_id_of_fixed {f : Char → Char} (l : List Char)
    (h : ∀ c ∈ l, f c = c) : l.map f = l := by
  induction l with
  | nil => rfl
  | cons c cs ih =>
      rw [List.map_cons, h c (List.mem_cons_self _ _),
        ih fun x hx => h x (List.mem_cons_of_mem _ hx)]

/-- Every character of a normalized title is fixed by both the lower-casing
and the punctuation-replacement steps. -/
theorem normalized_char_fixed (l : List Char) (c : Char)
    (hc : c ∈ normalized l) : c.toLower = c ∧ replaceChar c = c := by
  unfold normalized at hc
  rcases mem_joinWords _ _ hc with rfl | ⟨w, hw, hcw⟩
  · exact ⟨by decide, by decide⟩
  · have hw' : w ∈ splitSp ((l.map Char.toLower).map replaceChar) :=
      List.mem_of_mem_filter hw
    obtain ⟨hcm, _⟩ := mem_splitSp _ w c hw' hcw
    rcases List.mem_map.mp hcm with ⟨d, hd, rfl⟩
    rcases List.mem_map.mp hd with ⟨e, _, rfl⟩
    exact ⟨toLower_replace_lower e, replaceChar_idem e.toLower⟩

theorem normalized_idem (l : List Char) :
    normalized (normalized l) = normalized l := by
  have h1 : (normalized l).map Char.toLower = normalized l :=
    map_id_of_fixed _ fun c hc => (normalized_char_fixed l c hc).1
  have h2 : (normalized l).map replaceChar = normalized l :=
    map_id_of_fixed _ fun c hc => (normalized_char_fixed l c hc).2
  have h3 : wordsOf (normalized l) =
      wordsOf ((l.map Char.toLower).map replaceChar) :=
    wordsOf_joinWords _ (wordsOf_spec _)
  show joinWords (wordsOf (((normalized l).map Char.toLower).map replaceChar)) =
    normalized l
  rw [h1, h2, h3]
  rfl

/-- The ASCII normalizer used for the concrete classifier evaluations is the
generic pipeline instantiated at the ASCII character primitives. -/
theorem normalized_eq_normalizedWith (l : List Char) :
    normalizedWith (fun x => x.map Char.toLower) Char.isAlphanum l =
      normalized l := rfl

/-- Every character of a `normalizedWith` output is fixed by the (abstract)
lowercasing and by the punctuation replacement, given that lowercasing only
produces lowercase-fixed characters and fixes the space character. -/
theorem normalizedWith_char_fixed (lower : List Char → List Char)
    (isAlnum : Char → Bool)
    (hFix : ∀ (l : List Char) (c : Char), c ∈ lower l → lower [c] = [c])
    (hSp : lower [' '] = [' ']) (l : List Char) (c : Char)
    (hc : c ∈ normalizedWith lower isAlnum l) :
    lower [c] = [c] ∧ replaceCharWith isAlnum c = c := by
  unfold normalizedWith at hc
  rcases mem_joinWords _ _ hc with rfl | ⟨w, hw, hcw⟩
  · refine ⟨hSp, ?_⟩
    unfold replaceCharWith
    cases h : isAlnum ' ' <;> simp [h]
  · have hw' : w ∈ splitSp ((lower l).map (replaceCharWith isAlnum)) :=
      List.mem_of_mem_filter hw
    obtain ⟨hcm, hcsp⟩ := mem_splitSp _ w c hw' hcw
    rcases List.mem_map.mp hcm with ⟨d, hd, rfl⟩
    by_cases had : isAlnum d = true
    · have hval : replaceCharWith isAlnum d = d := by
        unfold replaceCharWith
        rw [if_pos had]
      rw [hval]
      exact ⟨hFix l d hd, hval⟩
    · have hval : replaceCharWith isAlnum d = ' ' := by
        unfold replaceCharWith
        rw [if_neg had]
      exact absurd hval hcsp

/-- Idempotence of the normalizer pipeline, for every instantiation of the
abstract Unicode primitives satisfying: characters produced by lowercasing
are lowercase-fixed; lowercasing is the identity on strings all of whose
characters are lowercase-fixed; the space character is lowercase-fixed.
No property of `isAlnum` is required. -/
theorem normalizedWith_idem (lower : List Char → List Char)
    (isAlnum : Char → Bool)
    (hFix : ∀ (l : List Char) (c : Char), c ∈ lower l → lower [c] = [c])
    (hId : ∀ l : List Char, (∀ c ∈ l, lower [c] = [c]) → lower l = l)
    (hSp : lower [' '] = [' ']) (l : List Char) :
    normalizedWith lower isAlnum (normalizedWith lower isAlnum l) =
      normalizedWith lower isAlnum l := by
  have hchar := normalizedWith_char_fixed lower isAlnum hFix hSp l
  have h1 : lower (normalizedWith lower isAlnum l) =
      normalizedWith lower isAlnum l :=
    hId _ fun c hc => (hchar c hc).1
  have h2 : (normalizedWith lower isAlnum l).map (replaceCharWith isAlnum) =
      normalizedWith lower isAlnum l :=
    map_id_of_fixed _ fun c hc => (hchar c hc).2
  have h3 : wordsOf (normalizedWith lower isAlnum l) =
      wordsOf ((lower l).map (replaceCharWith isAlnum)) :=
    wordsOf_joinWords _ (wordsOf_spec _)
  show joinWords (wordsOf ((lower (normalizedWith lower isAlnum l)).map
    (replaceCharWith isAlnum))) = normalizedWith lower isAlnum l
  rw [h1, h2, h3]
  rfl

/-- **C7**: the normalizer is idempotent for every string (empty,
punctuation-only and non-ASCII included): `fn normalized` is embedded with
the standard library's Unicode primitives as parameters, and idempotence
holds for every `lower`/`isAlnum` satisfying the three properties that
Unicode case mapping has — (i) every character produced by lowercasing is
itself lowercase-fixed (Unicode lowercasing is idempotent), (ii) lowercasing
is the identity on strings all of whose characters are lowercase-fixed (the
sole context-sensitive rule, Greek final sigma, maps the uppercase Σ, which
is not lowercase-fixed), (iii) the space character is lowercase-fixed.
Nothing is required of `isAlnum`. -/
theorem C7_normalized_idempotent (lower : List Char → List Char)
    (isAlnum : Char → Bool)
    (hFix : ∀ (l : List Char) (c : Char), c ∈ lower l → lower [c] = [c])
    (hId : ∀ l : List Char, (∀ c ∈ l, lower [c] = [c]) → lower l = l)
    (hSp : lower [' '] = [' ']) (s : String) :
    normalizedWithStr lower isAlnum (normalizedWithStr lower isAlnum s) =
      normalizedWithStr lower isAlnum s := by
  unfold normalizedWithStr
  exact congrArg String.mk (normalizedWith_idem lower isAlnum hFix hId hSp s.data)

/-- The ASCII character-wise lowercase map only produces lowercase-fixed
characters (instance of hypothesis (i) for the witness). -/
theorem asciiLower_image_fixed (l : List Char) (c : Char)
    (hc : c ∈ l.map Char.toLower) : [c].map Char.toLower = [c] := by
  rcases List.mem_map.mp hc with ⟨d, _, rfl⟩
  simp [toLower_idem d]

/-- The ASCII character-wise lowercase map is the identity on strings of
lowercase-fixed characters (instance of hypothesis (ii) for the witness). -/
theorem asciiLower_id (l : List Char)
    (h : ∀ c ∈ l, [c].map Char.toLower = [c]) : l.map Char.toLower = l :=
  map_id_of_fixed _ fun c hc => by simpa using h c hc

/-- Witness for C7: the generic theorem applied to the ASCII instantiation
of the primitives (which satisfies all three hypotheses) and a concrete
string. -/
theorem C7_witness :
    ((∀ (l : List Char) (c : Char), c ∈ (fun x : List Char =>
        x.map Char.toLower) l → [c].map Char.toLower = [c]) ∧
      (∀ l : List Char, (∀ c ∈ l, [c].map Char.toLower = [c]) →
        l.map Char.toLower = l) ∧
      [' '].map Char.toLower = [' ']) ∧
    normalizedWithStr (fun x => x.map Char.toLower) Char.isAlphanum
        (normalizedWithStr (fun x => x.map Char.toLower) Char.isAlphanum
          "  Mixed -- CASE_42  ") =
      normalizedWithStr (fun x => x.map Char.toLower) Char.isAlphanum
        "  Mixed -- CASE_42  " :=
  ⟨⟨asciiLower_image_fixed, asciiLower_id, by decide⟩,
    C7_normalized_idempotent (fun x => x.map Char.toLower) Char.isAlphanum
      asciiLower_image_fixed asciiLower_id (by decide) "  Mixed -- CASE_42  "⟩

end FindAJob
